import Mathlib

/-!
Shallow embedding of `catena.py`: typed pipeline nodes with build-time
schema accumulation checks and JSON (de)serialization.

Schemas are modelled as association lists from field name to a type tag
(Python classes `str`, `int`, `float`, `bool`), records as association
lists from field name to a dynamically typed value (Python `dict`
contexts).  Python dictionaries are insertion ordered; updating an
existing key keeps its position, a new key is appended, which `setKey`
and `recUpdate` mirror.
-/

/-- Semantic type tags for schema fields (the Python classes `str`, `int`,
`float`, `bool` used as dataclass field annotations). -/
inductive Ty where
  | tstr
  | tint
  | tfloat
  | tbool
deriving DecidableEq, Repr

/-- Runtime values stored in a record (context dictionary). -/
inductive Value where
  | str (s : String)
  | int (n : Int)
  | bool (b : Bool)
deriving DecidableEq, Repr

/-- A schema: `get_schema_fields` of a dataclass, i.e. the ordered mapping
from field name to declared type. -/
abbrev Schema := List (String × Ty)

/-- A runtime record / context dictionary: ordered mapping from field name
to value. -/
abbrev Record := List (String × Value)

/-- Dictionary lookup (first matching key), i.e. `d[k]` / `k in d`. -/
def lk {α : Type} : List (String × α) → String → Option α
  | [], _ => none
  | p :: rest, k => if p.1 = k then some p.2 else lk rest k

/-- The keys of an association list. -/
def keysOf {α : Type} (l : List (String × α)) : List String :=
  l.map Prod.fst

/-- `d[k] = v` on a Python dict: replace the value at the first occurrence
of `k` keeping its position, or append `(k, v)` at the end. -/
def setKey : Record → String → Value → Record
  | [], k, v => [(k, v)]
  | p :: rest, k, v => if p.1 = k then (k, v) :: rest else p :: setKey rest k v

/-- `d.update(u)` on a Python dict: set every key of `u` in order. -/
def recUpdate (r : Record) (u : Record) : Record :=
  u.foldl (fun acc p => setKey acc p.1 p.2) r

/-- `schema_union(known_fields, new_schema)` from the source: copy the
known fields and add each new field only when its name is not already
present, so the earlier type wins on collision. -/
def schema_union : Schema → Schema → Schema
  | result, [] => result
  | result, p :: rest =>
      schema_union (if lk result p.1 = none then result ++ [p] else result) rest

/-- `schema_is_subset(required, available)` from the source: every
required field must be present in `available` with the identical type. -/
def schema_is_subset (required available : Schema) : Bool :=
  required.all (fun p =>
    match lk available p.1 with
    | none => false
    | some t => t == p.2)

/-- Fields of the `PersonInput` dataclass. -/
def PersonInput : Schema := [("name", Ty.tstr), ("age", Ty.tint)]

/-- Fields of the `GreetingOutput` dataclass. -/
def GreetingOutput : Schema := [("greeting", Ty.tstr)]

/-- Fields of the `FavoriteColorOutput` dataclass. -/
def FavoriteColorOutput : Schema := [("favorite_color", Ty.tstr)]

/-- The node universe: `GreetNode`, `ColorNode`, `CompositeNode`, and
`prim` standing for an arbitrary user-defined `Node` subclass with
declared input/output schemas and an arbitrary `run` behaviour: on the
built input object, `run` either raises (an arbitrary exception from the
node's own logic — the spec's `TransformationError` — carried as a
message) or produces the output object, i.e. a value for each declared
output field.  `prim` keeps the base class `to_config`/`from_config`
(which raises `NotImplementedError`), so it is not serializable. -/
inductive NodeV where
  | prim (inS outS : Schema) (f : Record → Except String (String → Value))
  | greet (fmt : String)
  | color (c : String)
  | composite (children : List NodeV)

mutual
/-- `in_schema` property: a composite's is its first child's. -/
def inSchemaOf : NodeV → Schema
  | .prim iS _ _ => iS
  | .greet _ => PersonInput
  | .color _ => GreetingOutput
  | .composite cs => inFirst cs

/-- `self.nodes[0].in_schema` (empty list never occurs for a constructed
composite, see the emptiness theorems). -/
def inFirst : List NodeV → Schema
  | [] => []
  | n :: _ => inSchemaOf n
end

mutual
/-- `out_schema` property: a composite's is its last child's. -/
def outSchemaOf : NodeV → Schema
  | .prim _ oS _ => oS
  | .greet _ => GreetingOutput
  | .color _ => FavoriteColorOutput
  | .composite cs => outLast cs

/-- `self.nodes[-1].out_schema` (empty list never occurs for a constructed
composite). -/
def outLast : List NodeV → Schema
  | [] => []
  | [n] => outSchemaOf n
  | _ :: rest => outLast rest
end

/-- The composition errors raised at build time: `ValueError` for an empty
node list, `TypeError` carrying the offending node, its required fields
and the accumulated fields. -/
inductive CompErr where
  | emptySequence
  | incompatible (node : NodeV) (required available : Schema)

/-- The loop of `CompositeNode._build_composite`: starting from the
accumulated fields `acc` and the already accepted nodes `done`, check each
remaining node's input schema against `acc`, accept it and extend `acc`
with its output schema, or abort. -/
def buildAux (acc : Schema) (done : List NodeV) : List NodeV → Except CompErr (List NodeV)
  | [] => .ok done
  | n :: rest =>
      let required := inSchemaOf n
      if schema_is_subset required acc then
        buildAux (schema_union acc (outSchemaOf n)) (done ++ [n]) rest
      else
        .error (.incompatible n required acc)

/-- `CompositeNode.__init__`: reject the empty list, otherwise accept the
first node unchecked, seed the accumulated fields with the union of its
input and output schemas, and run the `_build_composite` loop. -/
def mkComposite (nodes : List NodeV) : Except CompErr NodeV :=
  match nodes with
  | [] => .error .emptySequence
  | n :: rest =>
      (buildAux (schema_union (inSchemaOf n) (outSchemaOf n)) [n] rest).map NodeV.composite

/-- `Node.__rshift__`: `a >> b` is `CompositeNode([a, b])`. -/
def rshift (a b : NodeV) : Except CompErr NodeV :=
  mkComposite [a, b]

/-- The runtime errors of `Node.__call__`: the `ValueError` raised by
`_build_input` naming the first required field absent from the context,
or an exception raised inside the node's own `run` (a format `KeyError`
in `GreetNode.run`, or anything an arbitrary subclass raises — the
spec's `TransformationError`), carried as its message.  `__call__`
catches neither; both propagate to the caller unchanged. -/
inductive InvokeErr where
  | missingField (name : String)
  | runFailure (msg : String)
deriving DecidableEq, Repr

/-- `Node._build_input`: collect the values of the schema's fields from
the context in declaration order, failing at the first absent field; the
values' runtime types are not checked. -/
def buildInput (ctx : Record) : Schema → Except InvokeErr Record
  | [] => .ok []
  | p :: rest =>
      match lk ctx p.1 with
      | none => .error (.missingField p.1)
      | some v => (buildInput ctx rest).map (fun inp => (p.1, v) :: inp)

/-- `str(v)` as used by Python string formatting. -/
def valueToStr : Value → String
  | .str s => s
  | .int n => toString n
  | .bool b => if b then "True" else "False"

/-- Split a replacement field at the closing brace: the field-name
characters and the remainder of the format string, or `none` when the
opening brace is never closed. -/
def splitField : List Char → Option (List Char × List Char)
  | [] => none
  | '\x7d' :: rest => some ([], rest)
  | c :: rest =>
      match splitField rest with
      | none => none
      | some p => some (c :: p.1, p.2)

/-- One pass of `str.format` over the format string, with the keyword
arguments `name` and `age` and no positional arguments: doubled braces
are escapes producing one literal brace; `\x7bname\x7d`/`\x7bage\x7d`
substitute the keyword arguments; an empty or numeric field raises
`IndexError` (no positional arguments were passed); any other field name
raises `KeyError`; an unmatched single brace raises `ValueError`.
Replacement fields carrying a conversion or format spec are outside the
modelled fragment (the repository never writes one) and are mapped to a
run failure as well.  The fuel decreases at every step and at least the
input length is supplied, so it never runs out on a real call. -/
def formatAux (name age : String) : Nat → List Char → Except String (List Char)
  | 0, _ => .error "format: out of fuel"
  | _ + 1, [] => .ok []
  | fuel + 1, '\x7b' :: '\x7b' :: rest =>
      (formatAux name age fuel rest).map (fun l => '\x7b' :: l)
  | fuel + 1, '\x7d' :: '\x7d' :: rest =>
      (formatAux name age fuel rest).map (fun l => '\x7d' :: l)
  | _ + 1, '\x7d' :: _ =>
      .error "ValueError: single closing brace encountered in format string"
  | fuel + 1, '\x7b' :: rest =>
      match splitField rest with
      | none => .error "ValueError: single opening brace encountered in format string"
      | some (field, rest2) =>
          if field = "name".data then
            (formatAux name age fuel rest2).map (fun l => name.data ++ l)
          else if field = "age".data then
            (formatAux name age fuel rest2).map (fun l => age.data ++ l)
          else if field = [] ∨ field.all Char.isDigit then
            .error "IndexError: replacement index out of range"
          else
            .error ("KeyError: " ++ String.mk field)
  | fuel + 1, c :: rest =>
      (formatAux name age fuel rest).map (fun l => c :: l)

/-- `greeting_format.format(name=inp.name, age=inp.age)`: either the
formatted string or the exception `str.format` raises. -/
def formatGreet (fmt : String) (name age : Value) : Except String String :=
  (formatAux (valueToStr name) (valueToStr age) (fmt.data.length + 1) fmt.data).map
    String.mk

mutual
/-- `Node.__call__` (invoke): build the typed input from the context, run
the node — propagating unchanged whatever `run` raises, as a
`runFailure` — and on success merge the output object's fields (exactly
the output schema's fields) into a copy of the context.  A composite
instead runs its children left to right, threading the context. -/
def invoke : NodeV → Record → Except InvokeErr Record
  | .prim iS oS f, ctx => do
      let inp ← buildInput ctx iS
      match f inp with
      | .error msg => .error (.runFailure msg)
      | .ok g => pure (recUpdate ctx (oS.map (fun p => (p.1, g p.1))))
  | .greet fmt, ctx => do
      let inp ← buildInput ctx PersonInput
      let nm := (lk inp "name").getD (.str "")
      let ag := (lk inp "age").getD (.str "")
      match formatGreet fmt nm ag with
      | .error msg => .error (.runFailure msg)
      | .ok s => pure (recUpdate ctx [("greeting", Value.str s)])
  | .color c, ctx => do
      let _ ← buildInput ctx GreetingOutput
      pure (recUpdate ctx [("favorite_color", Value.str c)])
  | .composite cs, ctx => invokeSeq cs ctx

/-- `CompositeNode.__call__`: run the children in order on the running
context. -/
def invokeSeq : List NodeV → Record → Except InvokeErr Record
  | [], ctx => .ok ctx
  | n :: rest, ctx => do
      let ctx1 ← invoke n ctx
      invokeSeq rest ctx1
end

mutual
/-- A validly constructed node: every composite inside it passed the
`CompositeNode.__init__` construction (a Python `CompositeNode` object
exists only if its constructor returned normally). -/
def wfB : NodeV → Bool
  | .composite cs => (mkComposite cs).toOption.isSome && wfAll cs
  | _ => true

/-- All nodes of a list are validly constructed. -/
def wfAll : List NodeV → Bool
  | [] => true
  | n :: rest => wfB n && wfAll rest
end

mutual
/-- A node whose behaviour is fully determined by its serializable
configuration: `GreetNode`, `ColorNode`, and composites thereof.  A
`prim` node keeps the base class `to_config` (empty) and `from_config`
(raises `NotImplementedError`) and is not serializable. -/
def serB : NodeV → Bool
  | .prim _ _ _ => false
  | .greet _ => true
  | .color _ => true
  | .composite cs => serAll cs

/-- All nodes of a list are serializable. -/
def serAll : List NodeV → Bool
  | [] => true
  | n :: rest => serB n && serAll rest
end

/-- The JSON values appearing in node documents. -/
inductive Json where
  | str (s : String)
  | int (n : Int)
  | obj (fields : List (String × Json))
  | arr (items : List Json)

mutual
/-- `Node.to_json`: a two-member object `{"type": fqcn, "config": ...}`,
with each concrete class contributing its `to_config`. -/
def toJson : NodeV → Json
  | .prim _ _ _ => .obj [("type", .str "catena.Node"), ("config", .obj [])]
  | .greet fmt =>
      .obj [("type", .str "catena.GreetNode"),
            ("config", .obj [("greeting_format", .str fmt)])]
  | .color c =>
      .obj [("type", .str "catena.ColorNode"),
            ("config", .obj [("color", .str c)])]
  | .composite cs =>
      .obj [("type", .str "catena.CompositeNode"),
            ("config", .obj [("sub_nodes", .arr (toJsonList cs))])]

/-- `[n.to_json() for n in nodes]`. -/
def toJsonList : List NodeV → List Json
  | [] => []
  | n :: rest => toJson n :: toJsonList rest
end

/-- The failures of `Node.from_json`: a document without the required
members or of the wrong shape, a type identifier the import machinery
cannot resolve, or a composite whose reconstruction fails the re-run
accumulation check. -/
inductive SerErr where
  | malformed
  | unknownType (t : String)
  | compositionFailed (e : CompErr)

/-- `[Node.from_json(d) for d in sub_nodes]` with the given parser for
one document. -/
def fromJsonListP (parse : Json → Except SerErr NodeV) :
    List Json → Except SerErr (List NodeV)
  | [] => .ok []
  | d :: rest => do
      let n ← parse d
      let ns ← fromJsonListP parse rest
      pure (n :: ns)

/-- `Node.from_json` with explicit recursion fuel (the fuel only bounds
document nesting depth; `fromJson` supplies enough for any document):
read `type` and `config`, resolve the class, and run its `from_config`.
`GreetNode`/`ColorNode` read one key with a default; `CompositeNode`
deserializes each child document and re-runs the constructor, hence the
accumulation check. -/
def fromJsonF : Nat → Json → Except SerErr NodeV
  | 0, _ => .error .malformed
  | fuel + 1, .obj fields => do
      let t ← match lk fields "type" with
        | some (.str t) => Except.ok t
        | _ => .error .malformed
      let cfg ← match lk fields "config" with
        | some c => Except.ok c
        | none => .error .malformed
      match t, cfg with
      | "catena.GreetNode", .obj cl =>
          match lk cl "greeting_format" with
          | some (.str fmt) => .ok (.greet fmt)
          | some _ => .error .malformed
          | none => .ok (.greet "Hello {name}, you are {age}")
      | "catena.ColorNode", .obj cl =>
          match lk cl "color" with
          | some (.str c) => .ok (.color c)
          | some _ => .error .malformed
          | none => .ok (.color "blue")
      | "catena.CompositeNode", .obj cl =>
          match lk cl "sub_nodes" with
          | some (.arr ds) => do
              let ns ← fromJsonListP (fromJsonF fuel) ds
              (mkComposite ns).mapError .compositionFailed
          | _ => .error .malformed
      | t, _ => .error (.unknownType t)
  | _ + 1, _ => .error .malformed

mutual
/-- Size of a JSON document: one per node plus the sizes of all nested
values.  Strictly larger than any nested document's size, so it is enough
recursion fuel for deserialization. -/
def jsonSize : Json → Nat
  | .str _ => 1
  | .int _ => 1
  | .obj fields => 1 + jsonSizeKV fields
  | .arr items => 1 + jsonSizeL items

/-- Total size of an object's member values. -/
def jsonSizeKV : List (String × Json) → Nat
  | [] => 0
  | p :: rest => jsonSize p.2 + jsonSizeKV rest

/-- Total size of an array's items. -/
def jsonSizeL : List Json → Nat
  | [] => 0
  | d :: rest => jsonSize d + jsonSizeL rest
end

/-- `Node.from_json`: deserialization of a document, with enough fuel for
its nesting depth. -/
def fromJson (d : Json) : Except SerErr NodeV :=
  fromJsonF (jsonSize d) d

mutual
/-- The children of a node, flattening nested composites, in execution
order. -/
def flattenN : NodeV → List NodeV
  | .composite cs => flattenL cs
  | n => [n]

/-- Flatten each node of a list and concatenate. -/
def flattenL : List NodeV → List NodeV
  | [] => []
  | n :: rest => flattenN n ++ flattenL rest
end

mutual
/-- The field names some node inside `n` writes into the context: for a
leaf its output schema's fields, for a composite the union over its
children. -/
def writtenNames : NodeV → List String
  | .composite cs => writtenNamesL cs
  | n => keysOf (outSchemaOf n)

/-- Union of the written names of a list of nodes. -/
def writtenNamesL : List NodeV → List String
  | [] => []
  | n :: rest => writtenNames n ++ writtenNamesL rest
end

/-- A leaf node (not a composite). -/
def isLeaf : NodeV → Bool
  | .composite _ => false
  | _ => true

/-- Modelled from the spec (§4.3, refinement side of C1): one acceptance
check of the accumulation algorithm — the node is rejected exactly when
some field of its input schema is absent from the accumulated schema or
present with a different type. -/
def specStepOk (required accumulated : Schema) : Bool :=
  required.all (fun p => lk accumulated p.1 == some p.2)

/-- Modelled from the spec (§4.3, refinement side of C1): the accumulation
algorithm on the nodes after the first, starting from the given
accumulated schema; after accepting a node the accumulated schema becomes
the union of the previous one and the node's output schema. -/
def accumSpecOk : Schema → List NodeV → Bool
  | _, [] => true
  | acc, n :: rest =>
      specStepOk (inSchemaOf n) acc && accumSpecOk (schema_union acc (outSchemaOf n)) rest

/-- A trivial `run` behaviour for the concrete example nodes below. -/
def constRun : Record → Except String (String → Value) :=
  fun _ => .ok (fun _ => Value.str "")

/-- Example node: no inputs, produces field `x`. -/
def nodeA : NodeV := .prim [] [("x", Ty.tstr)] constRun

/-- Example node: consumes `x`, produces `y`. -/
def nodeB : NodeV := .prim [("x", Ty.tstr)] [("y", Ty.tstr)] constRun

/-- Example node: consumes `x` and `y`, produces nothing. -/
def nodeC : NodeV := .prim [("x", Ty.tstr), ("y", Ty.tstr)] [] constRun

/-- Example node: consumes `y`, produces `z`. -/
def nodeD : NodeV := .prim [("y", Ty.tstr)] [("z", Ty.tstr)] constRun

/-- Example node: consumes `z`, produces nothing. -/
def nodeE : NodeV := .prim [("z", Ty.tstr)] [] constRun

/-- Left-grouped composition of `nodeB`, `nodeD`, `nodeE`. -/
def leftGrouped : NodeV := .composite [.composite [nodeB, nodeD], nodeE]

/-- Right-grouped composition of `nodeB`, `nodeD`, `nodeE`. -/
def rightGrouped : NodeV := .composite [nodeB, .composite [nodeD, nodeE]]

/-- Example pipeline: `GreetNode("X") >> ColorNode("g")` (constructible:
the accumulation check accepts it). -/
def pipeXG : NodeV := .composite [.greet "X", .color "g"]

/-- Example record already carrying a `greeting` field that the pipeline's
first stage overwrites. -/
def recWithGreeting : Record :=
  [("name", Value.str "A"), ("age", Value.int 1), ("greeting", Value.str "old")]

/-- Example pipeline used by the round-trip witness. -/
def pipeHiBlue : NodeV := .composite [.greet "Hi {name}", .color "blue"]

/-- Example record for the per-node invoke witnesses. -/
def recNameAge : Record := [("name", Value.str "B"), ("age", Value.int 2)]

/-- The result of `GreetNode("A")` on `recNameAge`. -/
def recNameAgeGreeted : Record :=
  [("name", Value.str "B"), ("age", Value.int 2), ("greeting", Value.str "A")]

/-- Induction principle for `NodeV` giving the hypothesis on every member
of a composite's child list. -/
def nodeInd {P : NodeV → Prop}
    (hprim : ∀ iS oS f, P (.prim iS oS f))
    (hgreet : ∀ fmt, P (.greet fmt))
    (hcolor : ∀ c, P (.color c))
    (hcomp : ∀ cs, (∀ c ∈ cs, P c) → P (.composite cs)) :
    ∀ n, P n
  | .prim iS oS f => hprim iS oS f
  | .greet fmt => hgreet fmt
  | .color c => hcolor c
  | .composite cs =>
      hcomp cs (fun c hc => nodeInd hprim hgreet hcolor hcomp c)
termination_by n => sizeOf n
decreasing_by
  simp_wf
  have h1 := List.sizeOf_lt_of_mem hc
  omega

/-- The two runtime facts proved about every node by induction: an
invocation that succeeds preserves present keys and establishes the keys
of the node's output schema; and on a validly constructed node whose
input-schema keys are all present, invocation never fails with a
missing-field error (it may still fail, when some `run` inside raises). -/
def NodeOK (n : NodeV) : Prop :=
  (∀ ctx res, invoke n ctx = .ok res →
      (∀ k, (lk ctx k).isSome = true → (lk res k).isSome = true) ∧
      (∀ k, k ∈ keysOf (outSchemaOf n) → (lk res k).isSome = true)) ∧
  (wfB n = true →
    ∀ ctx, (∀ k, k ∈ keysOf (inSchemaOf n) → (lk ctx k).isSome = true) →
      ∀ f, invoke n ctx ≠ .error (.missingField f))

/-! ## Basic lookup and union lemmas -/

theorem lk_append {α : Type} (a b : List (String × α)) (k : String) :
    lk (a ++ b) k = match lk a k with | some v => some v | none => lk b k := by
  induction a with
  | nil => simp [lk]
  | cons p rest ih =>
      by_cases h : p.1 = k
      · simp [lk, h]
      · simp [lk, h, ih]

theorem lk_isSome_iff_mem_keys {α : Type} (l : List (String × α)) (k : String) :
    (lk l k).isSome = true ↔ k ∈ keysOf l := by
  induction l with
  | nil => simp [lk, keysOf]
  | cons p rest ih =>
      by_cases h : p.1 = k
      · simp [lk, h, keysOf]
      · simp [lk, h, keysOf, ih]
        intro he
        exact absurd he.symm h

theorem lk_schema_union (a b : Schema) (k : String) :
    lk (schema_union a b) k =
      match lk a k with | some t => some t | none => lk b k := by
  induction b generalizing a with
  | nil => cases h : lk a k <;> simp [schema_union, h, lk]
  | cons p rest ih =>
      rw [schema_union]
      by_cases hpk : p.1 = k
      · subst hpk
        cases h : lk a p.1 with
        | some t => simp [h, ih, lk]
        | none => simp [h, ih, lk_append, lk]
      · cases h : lk a p.1 with
        | some t => simp [h, ih, lk, hpk]
        | none =>
            simp only [h, if_pos rfl, ih, lk_append, lk, hpk, if_neg hpk]
            cases hk : lk a k <;> simp [hk, lk_append, lk, hpk]

/-! ## Claims about schema union -/

/-- Claim C6: schema union has first-seen precedence — every field of `a`
keeps `a`'s type, a field only in `b` gets `b`'s type, and a collision is
not an error (the function is total and never takes `b`'s type for a
field named in `a`). -/
theorem union_first_seen (a b : Schema) (k : String) :
    lk (schema_union a b) k =
      match lk a k with | some t => some t | none => lk b k :=
  lk_schema_union a b k

/-- Claim C9: the accumulated schema grows monotonically — each loop step
of `_build_composite` replaces the accumulated schema `acc` by
`schema_union acc (outSchemaOf n)`, and every (field, type) pair of `acc`
is still present, with the same type, afterwards. -/
theorem accumulated_monotone (acc : Schema) (n : NodeV) (k : String) (t : Ty)
    (h : lk acc k = some t) :
    lk (schema_union acc (outSchemaOf n)) k = some t := by
  rw [lk_schema_union, h]

/-- Witness for C9 at a concrete accumulated schema and node. -/
theorem accumulated_monotone_witness :
    lk (schema_union [("x", Ty.tstr)] (outSchemaOf nodeB)) "x" = some Ty.tstr :=
  accumulated_monotone [("x", Ty.tstr)] nodeB "x" Ty.tstr rfl

/-! ## Structure of composition -/

theorem buildAux_ok_shape (rest : List NodeV) :
    ∀ acc done out, buildAux acc done rest = .ok out → out = done ++ rest := by
  induction rest with
  | nil =>
      intro acc done out h
      simp [buildAux] at h
      simp [h.symm]
  | cons n rest ih =>
      intro acc done out h
      rw [buildAux] at h
      by_cases hc : schema_is_subset (inSchemaOf n) acc = true
      · simp only [hc, if_pos] at h
        have := ih _ _ _ h
        simp [this]
      · simp [hc] at h

theorem mkComposite_ok_shape (ns : List NodeV) (v : NodeV)
    (h : mkComposite ns = .ok v) : v = .composite ns ∧ ns ≠ [] := by
  match ns with
  | [] => simp [mkComposite] at h
  | n :: rest =>
      rw [mkComposite] at h
      cases hb : buildAux (schema_union (inSchemaOf n) (outSchemaOf n)) [n] rest with
      | error e => rw [hb] at h; simp [Except.map] at h
      | ok out =>
          rw [hb] at h
          simp [Except.map] at h
          have := buildAux_ok_shape rest _ _ _ hb
          subst this
          simp [h.symm]

theorem schema_is_subset_eq_specStepOk (req acc : Schema) :
    schema_is_subset req acc = specStepOk req acc := by
  induction req with
  | nil => rfl
  | cons p rest ih =>
      simp only [schema_is_subset, specStepOk, List.all_cons] at ih ⊢
      rw [ih]
      congr 1
      cases h : lk acc p.1 <;> simp [h]

theorem buildAux_isOk_eq (rest : List NodeV) :
    ∀ acc done, (buildAux acc done rest).isOk = accumSpecOk acc rest := by
  induction rest with
  | nil => intro acc done; simp [buildAux, accumSpecOk, Except.isOk, Except.toBool]
  | cons n rest ih =>
      intro acc done
      rw [buildAux, accumSpecOk, schema_is_subset_eq_specStepOk]
      by_cases hc : specStepOk (inSchemaOf n) acc = true
      · simp [hc, ih]
      · simp [Bool.not_eq_true] at hc
        simp [hc, Except.isOk, Except.toBool]

/-- Claim C1: for a non-empty node list, construction succeeds exactly
when the spec's accumulation algorithm accepts every node after the first
— starting from the union of the first node's input and output schemas,
each node's input fields must all be present in the accumulated schema
with the same type, and the accumulated schema then absorbs the node's
output schema — and on success the Sequence holds exactly the given
nodes in order; on failure no Sequence is produced (the result is an
error carrying no node). -/
theorem composition_follows_accumulation (n0 : NodeV) (rest : List NodeV) :
    (mkComposite (n0 :: rest)).isOk =
        accumSpecOk (schema_union (inSchemaOf n0) (outSchemaOf n0)) rest
    ∧ ∀ v, mkComposite (n0 :: rest) = .ok v → v = .composite (n0 :: rest) := by
  constructor
  · rw [mkComposite]
    cases hb : buildAux (schema_union (inSchemaOf n0) (outSchemaOf n0)) [n0] rest with
    | error e =>
        have := buildAux_isOk_eq rest (schema_union (inSchemaOf n0) (outSchemaOf n0)) [n0]
        rw [hb] at this
        simp [Except.map, Except.isOk, Except.toBool] at this ⊢
        exact this
    | ok out =>
        have := buildAux_isOk_eq rest (schema_union (inSchemaOf n0) (outSchemaOf n0)) [n0]
        rw [hb] at this
        simp [Except.map, Except.isOk, Except.toBool] at this ⊢
        exact this
  · intro v h
    exact (mkComposite_ok_shape _ _ h).1

/-- Witness for C1 at a concrete two-node list. -/
theorem composition_follows_accumulation_witness :
    ((mkComposite [nodeB, nodeD]).isOk =
        accumSpecOk (schema_union (inSchemaOf nodeB) (outSchemaOf nodeB)) [nodeD])
    ∧ (NodeV.composite [nodeB, nodeD] = NodeV.composite [nodeB, nodeD]) :=
  ⟨(composition_follows_accumulation nodeB [nodeD]).1,
   (composition_follows_accumulation nodeB [nodeD]).2 (NodeV.composite [nodeB, nodeD]) rfl⟩

theorem outLast_eq_getLast (cs : List NodeV) (m : NodeV) (h : cs.getLast? = some m) :
    outLast cs = outSchemaOf m := by
  induction cs with
  | nil => simp at h
  | cons n rest ih =>
      cases rest with
      | nil =>
          simp [List.getLast?_singleton] at h
          subst h
          rfl
      | cons n2 rest2 =>
          rw [List.getLast?_cons_cons] at h
          rw [outLast]
          · exact ih h
          · simp

/-- Claim C7: a successfully composed Sequence's input schema is its first
child's input schema and its output schema is its last child's output
schema. -/
theorem sequence_schema_endpoints (ns : List NodeV) (v : NodeV)
    (h : mkComposite ns = .ok v) :
    ∃ n0 nl, ns.head? = some n0 ∧ ns.getLast? = some nl ∧
      inSchemaOf v = inSchemaOf n0 ∧ outSchemaOf v = outSchemaOf nl := by
  obtain ⟨hv, hne⟩ := mkComposite_ok_shape ns v h
  subst hv
  match ns, hne with
  | n :: rest, hne =>
      have hlast : (n :: rest).getLast? = some ((n :: rest).getLast (by simp)) :=
        List.getLast?_eq_getLast _ _
      refine ⟨n, (n :: rest).getLast (by simp), rfl, hlast, ?_, ?_⟩
      · rw [inSchemaOf, inFirst]
      · rw [outSchemaOf]
        exact outLast_eq_getLast _ _ hlast

/-- Witness for C7 at a concrete two-node composition. -/
theorem sequence_schema_endpoints_witness :
    ∃ n0 nl, ([nodeB, nodeD] : List NodeV).head? = some n0 ∧
      ([nodeB, nodeD] : List NodeV).getLast? = some nl ∧
      inSchemaOf (NodeV.composite [nodeB, nodeD]) = inSchemaOf n0 ∧
      outSchemaOf (NodeV.composite [nodeB, nodeD]) = outSchemaOf nl :=
  sequence_schema_endpoints [nodeB, nodeD] (NodeV.composite [nodeB, nodeD]) rfl

/-- Claim C8: composing the empty list fails with the empty-sequence
error, and no Sequence with zero children is ever constructed. -/
theorem empty_composition_fails :
    mkComposite [] = .error CompErr.emptySequence
    ∧ ∀ ns, mkComposite ns ≠ .ok (NodeV.composite []) := by
  refine ⟨rfl, ?_⟩
  intro ns h
  obtain ⟨hv, hne⟩ := mkComposite_ok_shape ns _ h
  injection hv with hcs
  exact hne hcs.symm

/-- Claim C10: every constructed composite has a non-empty child list, so
the `in_schema`/`out_schema` properties' accesses to the first and last
child are in bounds. -/
theorem composite_children_nonempty (ns cs : List NodeV)
    (h : mkComposite ns = .ok (NodeV.composite cs)) :
    cs.head?.isSome = true ∧ cs.getLast?.isSome = true := by
  obtain ⟨hv, hne⟩ := mkComposite_ok_shape ns _ h
  injection hv with hcs
  subst hcs
  match cs, hne with
  | n :: rest, _ => simp [List.getLast?_eq_getLast]

/-- Witness for C10 at a concrete construction. -/
theorem composite_children_nonempty_witness :
    ([nodeB, nodeD] : List NodeV).head?.isSome = true ∧
    ([nodeB, nodeD] : List NodeV).getLast?.isSome = true :=
  composite_children_nonempty [nodeB, nodeD] [nodeB, nodeD] rfl

/-! ## Record update and input-building lemmas -/

theorem lk_setKey (r : Record) (k : String) (v : Value) (q : String) :
    lk (setKey r k v) q = if k = q then some v else lk r q := by
  induction r with
  | nil =>
      by_cases h : k = q <;> simp [setKey, lk, h]
  | cons p rest ih =>
      by_cases hp : p.1 = k
      · by_cases h : k = q
        · simp [setKey, lk, hp, h]
        · simp only [setKey, if_pos hp, lk, if_neg h]
          rw [if_neg (fun hh : p.1 = q => h (hp.symm.trans hh))]
      · by_cases h : k = q
        · subst h
          simp [setKey, lk, hp, ih]
        · simp [setKey, lk, hp, h, ih]

theorem recUpdate_cons (r : Record) (p : String × Value) (rest : Record) :
    recUpdate r (p :: rest) = recUpdate (setKey r p.1 p.2) rest := rfl

theorem lk_recUpdate_not_mem (u r : Record) (q : String) (h : q ∉ keysOf u) :
    lk (recUpdate r u) q = lk r q := by
  induction u generalizing r with
  | nil => rfl
  | cons p rest ih =>
      simp [keysOf] at h
      rw [recUpdate_cons, ih _ (by simp [keysOf]; exact h.2), lk_setKey]
      rw [if_neg (fun hh : p.1 = q => h.1 hh.symm)]

theorem lk_recUpdate_isSome (u r : Record) (q : String) :
    (lk (recUpdate r u) q).isSome = true ↔
      (lk r q).isSome = true ∨ q ∈ keysOf u := by
  induction u generalizing r with
  | nil => simp [recUpdate, keysOf]
  | cons p rest ih =>
      rw [recUpdate_cons, ih]
      rw [lk_setKey]
      by_cases h : p.1 = q
      · simp [h, keysOf]
      · simp [h, keysOf]
        constructor
        · rintro (hx | hx)
          · exact Or.inl hx
          · exact Or.inr (Or.inr hx)
        · rintro (hx | hx | hx)
          · exact Or.inl hx
          · exact absurd hx.symm h
          · exact Or.inr hx

theorem except_not_isOk {ε α : Type} (e : Except ε α) (h : e.isOk = false) :
    ∃ err, e = .error err := by
  cases e with
  | error err => exact ⟨err, rfl⟩
  | ok a => simp [Except.isOk, Except.toBool] at h

theorem except_isOk_exists {ε α : Type} (e : Except ε α) (h : e.isOk = true) :
    ∃ a, e = .ok a := by
  cases e with
  | error err => simp [Except.isOk, Except.toBool] at h
  | ok a => exact ⟨a, rfl⟩

theorem keysOf_cons {α : Type} (p : String × α) (l : List (String × α)) :
    keysOf (p :: l) = p.1 :: keysOf l := rfl

theorem except_map_isOk {ε α β : Type} (f : α → β) (e : Except ε α) :
    (Except.map f e).isOk = e.isOk := by
  cases e <;> rfl

theorem buildInput_isOk_iff (s : Schema) (ctx : Record) :
    (buildInput ctx s).isOk = true ↔
      ∀ k, k ∈ keysOf s → (lk ctx k).isSome = true := by
  induction s with
  | nil => simp [buildInput, keysOf, Except.isOk, Except.toBool]
  | cons p rest ih =>
      rw [buildInput]
      cases h : lk ctx p.1 with
      | none =>
          constructor
          · intro hx
            simp [Except.isOk, Except.toBool] at hx
          · intro hall
            have := hall p.1 (by rw [keysOf_cons]; exact List.mem_cons_self _ _)
            rw [h] at this
            simp at this
      | some v =>
          rw [except_map_isOk]
          constructor
          · intro hx k hk
            rw [keysOf_cons, List.mem_cons] at hk
            cases hk with
            | inl he => subst he; simp [h]
            | inr he => exact (ih.1 hx) k he
          · intro hall
            exact ih.2 (fun k hk =>
              hall k (by rw [keysOf_cons, List.mem_cons]; exact Or.inr hk))

theorem buildInput_error_mem (s : Schema) (ctx : Record) (f : String)
    (h : buildInput ctx s = .error (.missingField f)) :
    f ∈ keysOf s ∧ lk ctx f = none := by
  induction s with
  | nil => simp [buildInput] at h
  | cons p rest ih =>
      rw [buildInput] at h
      cases hl : lk ctx p.1 with
      | none =>
          rw [hl] at h
          have hpf : p.1 = f := by
            injection h with h1
            injection h1
          subst hpf
          exact ⟨by rw [keysOf_cons]; exact List.mem_cons_self _ _, hl⟩
      | some v =>
          rw [hl] at h
          cases hb : buildInput ctx rest with
          | error e =>
              rw [hb] at h
              simp [Except.map] at h
              subst h
              have := ih hb
              exact ⟨by rw [keysOf_cons]; exact List.mem_cons_of_mem _ this.1, this.2⟩
          | ok inp => rw [hb] at h; simp [Except.map] at h

/-! ## Unfolding equations for invocation -/

theorem invoke_prim (iS oS : Schema) (f : Record → Except String (String → Value))
    (ctx : Record) :
    invoke (.prim iS oS f) ctx =
      (buildInput ctx iS).bind
        (fun inp =>
          match f inp with
          | .error msg => .error (.runFailure msg)
          | .ok g => .ok (recUpdate ctx (oS.map (fun p => (p.1, g p.1))))) := by
  rw [invoke]
  rfl

theorem invoke_greet (fmt : String) (ctx : Record) :
    invoke (.greet fmt) ctx =
      (buildInput ctx PersonInput).bind
        (fun inp =>
          match formatGreet fmt ((lk inp "name").getD (.str ""))
              ((lk inp "age").getD (.str "")) with
          | .error msg => .error (.runFailure msg)
          | .ok s => .ok (recUpdate ctx [("greeting", Value.str s)])) := by
  rw [invoke]
  rfl

theorem invoke_color (c : String) (ctx : Record) :
    invoke (.color c) ctx =
      (buildInput ctx GreetingOutput).bind
        (fun _ => .ok (recUpdate ctx [("favorite_color", Value.str c)])) := by
  rw [invoke]
  rfl

theorem invoke_composite (cs : List NodeV) (ctx : Record) :
    invoke (.composite cs) ctx = invokeSeq cs ctx := by
  rw [invoke]

theorem invokeSeq_nil (ctx : Record) : invokeSeq [] ctx = .ok ctx := by
  rw [invokeSeq]

theorem invokeSeq_cons (n : NodeV) (rest : List NodeV) (ctx : Record) :
    invokeSeq (n :: rest) ctx = (invoke n ctx).bind (invokeSeq rest) := by
  rw [invokeSeq]
  rfl

theorem except_bind_ok {ε α β : Type} (a : α) (f : α → Except ε β) :
    (Except.ok a).bind f = f a := rfl

theorem except_bind_error {ε α β : Type} (e : ε) (f : α → Except ε β) :
    (Except.error e : Except ε α).bind f = .error e := rfl

theorem except_bind_assoc {ε α β γ : Type} (e : Except ε α)
    (f : α → Except ε β) (g : β → Except ε γ) :
    (e.bind f).bind g = e.bind (fun x => (f x).bind g) := by
  cases e <;> rfl

theorem except_bind_pure {ε α : Type} (e : Except ε α) :
    e.bind Except.ok = e := by
  cases e <;> rfl

/-! ## Unfolding equations for schemas and well-formedness -/

theorem inSchemaOf_prim (iS oS : Schema) (f : Record → Except String (String → Value)) :
    inSchemaOf (.prim iS oS f) = iS := by rw [inSchemaOf]

theorem outSchemaOf_prim (iS oS : Schema) (f : Record → Except String (String → Value)) :
    outSchemaOf (.prim iS oS f) = oS := by rw [outSchemaOf]

theorem inSchemaOf_greet (fmt : String) :
    inSchemaOf (.greet fmt) = PersonInput := by rw [inSchemaOf]

theorem outSchemaOf_greet (fmt : String) :
    outSchemaOf (.greet fmt) = GreetingOutput := by rw [outSchemaOf]

theorem inSchemaOf_color (c : String) :
    inSchemaOf (.color c) = GreetingOutput := by rw [inSchemaOf]

theorem outSchemaOf_color (c : String) :
    outSchemaOf (.color c) = FavoriteColorOutput := by rw [outSchemaOf]

theorem inSchemaOf_composite (cs : List NodeV) :
    inSchemaOf (.composite cs) = inFirst cs := by rw [inSchemaOf]

theorem outSchemaOf_composite (cs : List NodeV) :
    outSchemaOf (.composite cs) = outLast cs := by rw [outSchemaOf]

theorem inFirst_cons (n : NodeV) (rest : List NodeV) :
    inFirst (n :: rest) = inSchemaOf n := by rw [inFirst]

theorem outLast_singleton (n : NodeV) : outLast [n] = outSchemaOf n := by
  rw [outLast]

theorem outLast_cons_cons (a b : NodeV) (l : List NodeV) :
    outLast (a :: b :: l) = outLast (b :: l) := by
  rw [outLast]
  simp

theorem wfB_composite (cs : List NodeV) :
    wfB (.composite cs) = ((mkComposite cs).toOption.isSome && wfAll cs) := by
  rw [wfB]

theorem wfAll_mem (cs : List NodeV) (h : wfAll cs = true) :
    ∀ c ∈ cs, wfB c = true := by
  induction cs with
  | nil => intro c hc; simp at hc
  | cons n rest ih =>
      rw [wfAll] at h
      intro c hc
      rcases List.mem_cons.1 hc with he | he
      · subst he; exact (Bool.and_eq_true_iff.1 h).1
      · exact ih (Bool.and_eq_true_iff.1 h).2 c he

theorem keysOf_map_fst {α β : Type} (l : List (String × α)) (g : String × α → β) :
    keysOf (l.map (fun p => (p.1, g p))) = keysOf l := by
  simp [keysOf, List.map_map]

theorem subset_keys (req avail : Schema) (h : schema_is_subset req avail = true) :
    ∀ k, k ∈ keysOf req → k ∈ keysOf avail := by
  intro k hk
  rw [← lk_isSome_iff_mem_keys]
  unfold schema_is_subset at h
  rw [List.all_eq_true] at h
  simp [keysOf] at hk
  obtain ⟨t, ht⟩ := hk
  have := h (k, t) ht
  cases hl : lk avail k with
  | none => rw [hl] at this; simp at this
  | some t2 => simp

theorem union_keys_cases (a b : Schema) (k : String)
    (h : k ∈ keysOf (schema_union a b)) : k ∈ keysOf a ∨ k ∈ keysOf b := by
  rw [← lk_isSome_iff_mem_keys] at h
  rw [lk_schema_union] at h
  cases hl : lk a k with
  | some t => exact Or.inl ((lk_isSome_iff_mem_keys a k).1 (by simp [hl]))
  | none =>
      rw [hl] at h
      exact Or.inr ((lk_isSome_iff_mem_keys b k).1 h)

/-! ## Runtime behaviour of sequences -/

theorem invokeSeq_growth (cs : List NodeV) (hok : ∀ c ∈ cs, NodeOK c) :
    ∀ ctx res, invokeSeq cs ctx = .ok res →
      ∀ k, (lk ctx k).isSome = true → (lk res k).isSome = true := by
  induction cs with
  | nil =>
      intro ctx res h k hk
      rw [invokeSeq_nil] at h
      have : ctx = res := by simpa using h
      subst this
      exact hk
  | cons n rest ih =>
      intro ctx res h k hk
      rw [invokeSeq_cons] at h
      cases hn : invoke n ctx with
      | error e => rw [hn, except_bind_error] at h; simp at h
      | ok mid =>
          rw [hn, except_bind_ok] at h
          have g1 := ((hok n (by simp)).1 ctx mid hn).1 k hk
          exact ih (fun c hc => hok c (by simp [hc])) mid res h k g1

theorem invokeSeq_outLast (cs : List NodeV) (hok : ∀ c ∈ cs, NodeOK c) :
    ∀ ctx res, invokeSeq cs ctx = .ok res →
      ∀ k, k ∈ keysOf (outLast cs) → (lk res k).isSome = true := by
  induction cs with
  | nil =>
      intro ctx res h k hk
      rw [outLast] at hk
      simp [keysOf] at hk
  | cons n rest ih =>
      intro ctx res h k hk
      cases rest with
      | nil =>
          rw [invokeSeq_cons] at h
          cases hn : invoke n ctx with
          | error e => rw [hn, except_bind_error] at h; simp at h
          | ok mid =>
              rw [hn, except_bind_ok, invokeSeq_nil] at h
              have : mid = res := by simpa using h
              subst this
              rw [outLast_singleton] at hk
              exact ((hok n (by simp)).1 ctx mid hn).2 k hk
      | cons m rest2 =>
          rw [invokeSeq_cons] at h
          cases hn : invoke n ctx with
          | error e => rw [hn, except_bind_error] at h; simp at h
          | ok mid =>
              rw [hn, except_bind_ok] at h
              rw [outLast_cons_cons] at hk
              exact ih (fun c hc => hok c (by simp [hc])) mid res h k hk

theorem buildAux_no_missing (rest : List NodeV)
    (hok : ∀ c ∈ rest, NodeOK c) (hwf : ∀ c ∈ rest, wfB c = true) :
    ∀ acc done out, buildAux acc done rest = .ok out →
      ∀ ctx, (∀ k, k ∈ keysOf acc → (lk ctx k).isSome = true) →
        ∀ fname, invokeSeq rest ctx ≠ .error (.missingField fname) := by
  induction rest with
  | nil =>
      intro acc done out h ctx hcov fname hcontra
      rw [invokeSeq_nil] at hcontra
      simp at hcontra
  | cons n rest ih =>
      intro acc done out h ctx hcov fname hcontra
      rw [buildAux] at h
      by_cases hc : schema_is_subset (inSchemaOf n) acc = true
      · simp only [hc, if_pos] at h
        have hin : ∀ k, k ∈ keysOf (inSchemaOf n) → (lk ctx k).isSome = true :=
          fun k hk => hcov k (subset_keys _ _ hc k hk)
        rw [invokeSeq_cons] at hcontra
        cases hn : invoke n ctx with
        | error e =>
            rw [hn, except_bind_error] at hcontra
            have he : e = .missingField fname := by simpa using hcontra
            subst he
            exact (hok n (by simp)).2 (hwf n (by simp)) ctx hin fname hn
        | ok mid =>
            rw [hn, except_bind_ok] at hcontra
            have hcov2 : ∀ k, k ∈ keysOf (schema_union acc (outSchemaOf n)) →
                (lk mid k).isSome = true := by
              intro k hk
              rcases union_keys_cases _ _ _ hk with hka | hkb
              · exact ((hok n (by simp)).1 ctx mid hn).1 k (hcov k hka)
              · exact ((hok n (by simp)).1 ctx mid hn).2 k hkb
            exact ih (fun c hcm => hok c (by simp [hcm]))
              (fun c hcm => hwf c (by simp [hcm])) _ _ _ h mid hcov2 fname hcontra
      · simp [hc] at h

/-- Every node satisfies `NodeOK`. -/
theorem nodeOK : ∀ n, NodeOK n := by
  intro n
  refine nodeInd (P := NodeOK) ?_ ?_ ?_ ?_ n
  · intro iS oS f
    constructor
    · intro ctx res h
      rw [invoke_prim] at h
      cases hb : buildInput ctx iS with
      | error e => rw [hb, except_bind_error] at h; simp at h
      | ok inp =>
          rw [hb, except_bind_ok] at h
          cases hf : f inp with
          | error msg => rw [hf] at h; simp at h
          | ok g =>
              rw [hf] at h
              have hres : recUpdate ctx (oS.map fun p => (p.1, g p.1)) = res := by
                simpa using h
              subst hres
              constructor
              · intro k hk
                rw [lk_recUpdate_isSome]
                exact Or.inl hk
              · intro k hk
                rw [lk_recUpdate_isSome]
                right
                rw [keysOf_map_fst]
                rw [outSchemaOf_prim] at hk
                exact hk
    · intro _ ctx hcov fname hcontra
      rw [invoke_prim] at hcontra
      rw [inSchemaOf_prim] at hcov
      have : (buildInput ctx iS).isOk = true := (buildInput_isOk_iff iS ctx).2 hcov
      obtain ⟨inp, hinp⟩ := except_isOk_exists _ this
      rw [hinp, except_bind_ok] at hcontra
      cases hf : f inp with
      | error msg => rw [hf] at hcontra; simp at hcontra
      | ok g => rw [hf] at hcontra; simp at hcontra
  · intro fmt
    constructor
    · intro ctx res h
      rw [invoke_greet] at h
      cases hb : buildInput ctx PersonInput with
      | error e => rw [hb, except_bind_error] at h; simp at h
      | ok inp =>
          rw [hb, except_bind_ok] at h
          cases hf : formatGreet fmt ((lk inp "name").getD (.str ""))
              ((lk inp "age").getD (.str "")) with
          | error msg => rw [hf] at h; simp at h
          | ok str =>
              rw [hf] at h
              have hres : recUpdate ctx [("greeting", Value.str str)] = res := by
                simpa using h
              subst hres
              constructor
              · intro k hk
                rw [lk_recUpdate_isSome]
                exact Or.inl hk
              · intro k hk
                rw [lk_recUpdate_isSome]
                right
                rw [outSchemaOf_greet] at hk
                simpa [keysOf, GreetingOutput] using hk
    · intro _ ctx hcov fname hcontra
      rw [invoke_greet] at hcontra
      rw [inSchemaOf_greet] at hcov
      have : (buildInput ctx PersonInput).isOk = true :=
        (buildInput_isOk_iff PersonInput ctx).2 hcov
      obtain ⟨inp, hinp⟩ := except_isOk_exists _ this
      rw [hinp, except_bind_ok] at hcontra
      cases hf : formatGreet fmt ((lk inp "name").getD (.str ""))
          ((lk inp "age").getD (.str "")) with
      | error msg => rw [hf] at hcontra; simp at hcontra
      | ok str => rw [hf] at hcontra; simp at hcontra
  · intro c
    constructor
    · intro ctx res h
      rw [invoke_color] at h
      cases hb : buildInput ctx GreetingOutput with
      | error e => rw [hb, except_bind_error] at h; simp at h
      | ok inp =>
          rw [hb, except_bind_ok] at h
          have hres : recUpdate ctx [("favorite_color", Value.str c)] = res := by
            simpa using h
          subst hres
          constructor
          · intro k hk
            rw [lk_recUpdate_isSome]
            exact Or.inl hk
          · intro k hk
            rw [lk_recUpdate_isSome]
            right
            rw [outSchemaOf_color] at hk
            simpa [keysOf, FavoriteColorOutput] using hk
    · intro _ ctx hcov fname hcontra
      rw [invoke_color] at hcontra
      rw [inSchemaOf_color] at hcov
      have : (buildInput ctx GreetingOutput).isOk = true :=
        (buildInput_isOk_iff GreetingOutput ctx).2 hcov
      obtain ⟨inp, hinp⟩ := except_isOk_exists _ this
      rw [hinp, except_bind_ok] at hcontra
      simp at hcontra
  · intro cs hcs
    constructor
    · intro ctx res h
      rw [invoke_composite] at h
      constructor
      · exact invokeSeq_growth cs hcs ctx res h
      · intro k hk
        rw [outSchemaOf_composite] at hk
        exact invokeSeq_outLast cs hcs ctx res h k hk
    · intro hwf ctx hcov fname hcontra
      rw [wfB_composite, Bool.and_eq_true_iff] at hwf
      obtain ⟨v, hv⟩ := Option.isSome_iff_exists.1 hwf.1
      have hmk : mkComposite cs = .ok v := by
        cases hmk2 : mkComposite cs with
        | error e => rw [hmk2] at hv; simp [Except.toOption] at hv
        | ok v2 =>
            rw [hmk2] at hv
            simp [Except.toOption] at hv
            rw [hv]
      have hwfall := wfAll_mem cs hwf.2
      match cs, hcs, hwfall, hmk, hcov, hcontra with
      | c0 :: rest, hcs, hwfall, hmk, hcov, hcontra =>
          rw [mkComposite] at hmk
          cases hb : buildAux (schema_union (inSchemaOf c0) (outSchemaOf c0)) [c0] rest with
          | error e => rw [hb] at hmk; simp [Except.map] at hmk
          | ok out =>
              rw [inSchemaOf_composite, inFirst_cons] at hcov
              rw [invoke_composite, invokeSeq_cons] at hcontra
              cases hmid : invoke c0 ctx with
              | error e =>
                  rw [hmid, except_bind_error] at hcontra
                  have he : e = .missingField fname := by simpa using hcontra
                  subst he
                  exact (hcs c0 (by simp)).2 (hwfall c0 (by simp)) ctx hcov fname hmid
              | ok mid =>
                  rw [hmid, except_bind_ok] at hcontra
                  have hcov2 : ∀ k, k ∈ keysOf (schema_union (inSchemaOf c0) (outSchemaOf c0)) →
                      (lk mid k).isSome = true := by
                    intro k hk
                    rcases union_keys_cases _ _ _ hk with hka | hkb
                    · exact ((hcs c0 (by simp)).1 ctx mid hmid).1 k (hcov k hka)
                    · exact ((hcs c0 (by simp)).1 ctx mid hmid).2 k hkb
                  exact buildAux_no_missing rest
                    (fun c hcm => hcs c (by simp [hcm]))
                    (fun c hcm => hwfall c (by simp [hcm]))
                    _ _ _ hb mid hcov2 fname hcontra

/-! ## Missing-field behaviour -/

theorem buildInput_error_shape (s : Schema) (ctx : Record) (e : InvokeErr)
    (h : buildInput ctx s = .error e) : ∃ f, e = .missingField f := by
  induction s with
  | nil => simp [buildInput] at h
  | cons p rest ih =>
      rw [buildInput] at h
      cases hl : lk ctx p.1 with
      | none =>
          rw [hl] at h
          have hpe : InvokeErr.missingField p.1 = e := by simpa using h
          exact ⟨p.1, hpe.symm⟩
      | some v =>
          rw [hl] at h
          cases hb : buildInput ctx rest with
          | error e2 =>
              rw [hb] at h
              simp [Except.map] at h
              subst h
              exact ih hb
          | ok inp => rw [hb] at h; simp [Except.map] at h

theorem buildInput_fails (s : Schema) (ctx : Record) (k : String)
    (hk : k ∈ keysOf s) (hnone : lk ctx k = none) :
    ∃ f, buildInput ctx s = .error (.missingField f) ∧
      f ∈ keysOf s ∧ lk ctx f = none := by
  cases hb : (buildInput ctx s).isOk with
  | true =>
      have := (buildInput_isOk_iff s ctx).1 hb k hk
      rw [hnone] at this
      simp at this
  | false =>
      obtain ⟨e, he⟩ := except_not_isOk _ hb
      obtain ⟨f, hf⟩ := buildInput_error_shape s ctx e he
      subst hf
      exact ⟨f, he, buildInput_error_mem s ctx f he⟩

theorem invoke_missing : ∀ n ctx,
    (∃ k, k ∈ keysOf (inSchemaOf n) ∧ lk ctx k = none) →
    ∃ f, invoke n ctx = .error (.missingField f) ∧
      f ∈ keysOf (inSchemaOf n) ∧ lk ctx f = none := by
  intro n
  refine nodeInd (P := fun n => ∀ ctx,
    (∃ k, k ∈ keysOf (inSchemaOf n) ∧ lk ctx k = none) →
    ∃ f, invoke n ctx = .error (.missingField f) ∧
      f ∈ keysOf (inSchemaOf n) ∧ lk ctx f = none) ?_ ?_ ?_ ?_ n
  · intro iS oS f ctx ⟨k, hk, hnone⟩
    rw [inSchemaOf_prim] at hk ⊢
    obtain ⟨f2, herr, hmem, hn2⟩ := buildInput_fails iS ctx k hk hnone
    exact ⟨f2, by rw [invoke_prim, herr, except_bind_error], hmem, hn2⟩
  · intro fmt ctx ⟨k, hk, hnone⟩
    rw [inSchemaOf_greet] at hk ⊢
    obtain ⟨f2, herr, hmem, hn2⟩ := buildInput_fails PersonInput ctx k hk hnone
    exact ⟨f2, by rw [invoke_greet, herr, except_bind_error], hmem, hn2⟩
  · intro c ctx ⟨k, hk, hnone⟩
    rw [inSchemaOf_color] at hk ⊢
    obtain ⟨f2, herr, hmem, hn2⟩ := buildInput_fails GreetingOutput ctx k hk hnone
    exact ⟨f2, by rw [invoke_color, herr, except_bind_error], hmem, hn2⟩
  · intro cs hcs ctx ⟨k, hk, hnone⟩
    match cs, hcs, hk with
    | [], _, hk =>
        rw [inSchemaOf_composite, inFirst] at hk
        simp [keysOf] at hk
    | c0 :: rest, hcs, hk =>
        rw [inSchemaOf_composite, inFirst_cons] at hk
        obtain ⟨f2, herr, hmem, hn2⟩ := hcs c0 (by simp) ctx ⟨k, hk, hnone⟩
        refine ⟨f2, ?_, ?_, hn2⟩
        · rw [invoke_composite, invokeSeq_cons, herr, except_bind_error]
        · rw [inSchemaOf_composite, inFirst_cons]
          exact hmem

/-- Claim C4: on a validly constructed node, invoke fails with the
missing-field `ValueError` exactly when some field name of the node's
input schema is absent from the record, and that error names an absent
required field.  Mere presence of a field with a value of the wrong
runtime type is not checked and never causes this error.  Failures
raised inside a node's own `run` are the distinct `runFailure` errors
and are not missing-field errors. -/
theorem invoke_missing_field_iff (n : NodeV) (r : Record) (hwf : wfB n = true) :
    ((∃ f, invoke n r = .error (.missingField f)) ↔
      ∃ k, k ∈ keysOf (inSchemaOf n) ∧ lk r k = none)
    ∧ ∀ f, invoke n r = .error (.missingField f) →
        f ∈ keysOf (inSchemaOf n) ∧ lk r f = none := by
  have hcases : (∀ k, k ∈ keysOf (inSchemaOf n) → (lk r k).isSome = true) ∨
      (∃ k, k ∈ keysOf (inSchemaOf n) ∧ lk r k = none) := by
    by_cases hall : ∀ k, k ∈ keysOf (inSchemaOf n) → (lk r k).isSome = true
    · exact Or.inl hall
    · push_neg at hall
      obtain ⟨k, hk, hns⟩ := hall
      refine Or.inr ⟨k, hk, ?_⟩
      cases hl : lk r k with
      | none => rfl
      | some v => rw [hl] at hns; simp at hns
  constructor
  · constructor
    · rintro ⟨f, herr⟩
      rcases hcases with hall | hex
      · exact absurd herr ((nodeOK n).2 hwf r hall f)
      · exact hex
    · rintro ⟨k, hk, hnone⟩
      obtain ⟨f, herr, _, _⟩ := invoke_missing n r ⟨k, hk, hnone⟩
      exact ⟨f, herr⟩
  · intro f herr
    rcases hcases with hall | hex
    · exact absurd herr ((nodeOK n).2 hwf r hall f)
    · obtain ⟨f2, herr2, hmem2, hnone2⟩ := invoke_missing n r hex
      rw [herr] at herr2
      have hff : f = f2 := by simpa using herr2
      rw [hff]
      exact ⟨hmem2, hnone2⟩

/-- Witness for C4: `GreetNode` invoked on a record lacking `age`. -/
theorem invoke_missing_field_iff_witness :
    (((∃ f, invoke (.greet "F") [("name", Value.str "A")] =
        .error (.missingField f)) ↔
      ∃ k, k ∈ keysOf (inSchemaOf (.greet "F")) ∧
        lk [("name", Value.str "A")] k = none)
    ∧ ∀ f, invoke (.greet "F") [("name", Value.str "A")] = .error (.missingField f) →
        f ∈ keysOf (inSchemaOf (.greet "F")) ∧
          lk [("name", Value.str "A")] f = none) :=
  invoke_missing_field_iff (.greet "F") [("name", Value.str "A")] rfl

/-! ## Pass-through behaviour -/

theorem writtenNames_prim (iS oS : Schema) (f : Record → Except String (String → Value)) :
    writtenNames (.prim iS oS f) = keysOf oS := by
  rw [writtenNames]
  · rw [outSchemaOf_prim]
  · simp

theorem writtenNames_greet (fmt : String) :
    writtenNames (.greet fmt) = keysOf GreetingOutput := by
  rw [writtenNames]
  · rw [outSchemaOf_greet]
  · simp

theorem writtenNames_color (c : String) :
    writtenNames (.color c) = keysOf FavoriteColorOutput := by
  rw [writtenNames]
  · rw [outSchemaOf_color]
  · simp

theorem writtenNames_composite (cs : List NodeV) :
    writtenNames (.composite cs) = writtenNamesL cs := by
  rw [writtenNames]

theorem writtenNamesL_nil : writtenNamesL [] = [] := by rw [writtenNamesL]

theorem writtenNamesL_cons (n : NodeV) (rest : List NodeV) :
    writtenNamesL (n :: rest) = writtenNames n ++ writtenNamesL rest := by
  rw [writtenNamesL]

theorem invokeSeq_passthrough (cs : List NodeV)
    (hp : ∀ c ∈ cs, ∀ ctx res, invoke c ctx = .ok res →
      ∀ k, k ∉ writtenNames c → lk res k = lk ctx k) :
    ∀ ctx res, invokeSeq cs ctx = .ok res →
      ∀ k, k ∉ writtenNamesL cs → lk res k = lk ctx k := by
  induction cs with
  | nil =>
      intro ctx res h k _
      rw [invokeSeq_nil] at h
      have : ctx = res := by simpa using h
      subst this
      rfl
  | cons n rest ih =>
      intro ctx res h k hk
      rw [writtenNamesL_cons] at hk
      simp only [List.mem_append] at hk
      push_neg at hk
      rw [invokeSeq_cons] at h
      cases hn : invoke n ctx with
      | error e => rw [hn, except_bind_error] at h; simp at h
      | ok mid =>
          rw [hn, except_bind_ok] at h
          have h1 := hp n (by simp) ctx mid hn k hk.1
          have h2 := ih (fun c hc => hp c (by simp [hc])) mid res h k hk.2
          rw [h2, h1]

theorem invoke_passthrough : ∀ n ctx res, invoke n ctx = .ok res →
    ∀ k, k ∉ writtenNames n → lk res k = lk ctx k := by
  intro n
  refine nodeInd (P := fun n => ∀ ctx res, invoke n ctx = .ok res →
    ∀ k, k ∉ writtenNames n → lk res k = lk ctx k) ?_ ?_ ?_ ?_ n
  · intro iS oS f ctx res h k hk
    rw [writtenNames_prim] at hk
    rw [invoke_prim] at h
    cases hb : buildInput ctx iS with
    | error e => rw [hb, except_bind_error] at h; simp at h
    | ok inp =>
        rw [hb, except_bind_ok] at h
        cases hf : f inp with
        | error msg => rw [hf] at h; simp at h
        | ok g =>
            rw [hf] at h
            have hres : recUpdate ctx (oS.map fun p => (p.1, g p.1)) = res := by
              simpa using h
            subst hres
            exact lk_recUpdate_not_mem _ ctx k (by rw [keysOf_map_fst]; exact hk)
  · intro fmt ctx res h k hk
    rw [writtenNames_greet] at hk
    rw [invoke_greet] at h
    cases hb : buildInput ctx PersonInput with
    | error e => rw [hb, except_bind_error] at h; simp at h
    | ok inp =>
        rw [hb, except_bind_ok] at h
        cases hf : formatGreet fmt ((lk inp "name").getD (.str ""))
            ((lk inp "age").getD (.str "")) with
        | error msg => rw [hf] at h; simp at h
        | ok str =>
            rw [hf] at h
            have hres : recUpdate ctx [("greeting", Value.str str)] = res := by
              simpa using h
            subst hres
            exact lk_recUpdate_not_mem _ ctx k (by
              simpa [keysOf, GreetingOutput] using hk)
  · intro c ctx res h k hk
    rw [writtenNames_color] at hk
    rw [invoke_color] at h
    cases hb : buildInput ctx GreetingOutput with
    | error e => rw [hb, except_bind_error] at h; simp at h
    | ok inp =>
        rw [hb, except_bind_ok] at h
        have hres : recUpdate ctx [("favorite_color", Value.str c)] = res := by
          simpa using h
        subst hres
        exact lk_recUpdate_not_mem _ ctx k (by
          simpa [keysOf, FavoriteColorOutput] using hk)
  · intro cs hcs ctx res h k hk
    rw [writtenNames_composite] at hk
    rw [invoke_composite] at h
    exact invokeSeq_passthrough cs hcs ctx res h k hk

theorem invoke_leaf_shape (n : NodeV) (hleaf : isLeaf n = true) (ctx res : Record)
    (h : invoke n ctx = .ok res) :
    ∃ outd, keysOf outd = keysOf (outSchemaOf n) ∧ res = recUpdate ctx outd := by
  match n, hleaf with
  | .prim iS oS f, _ =>
      rw [invoke_prim] at h
      cases hb : buildInput ctx iS with
      | error e => rw [hb, except_bind_error] at h; simp at h
      | ok inp =>
          rw [hb, except_bind_ok] at h
          cases hf : f inp with
          | error msg => rw [hf] at h; simp at h
          | ok g =>
              rw [hf] at h
              refine ⟨oS.map fun p => (p.1, g p.1), ?_, ?_⟩
              · rw [keysOf_map_fst, outSchemaOf_prim]
              · injection h with h1
                exact h1.symm
  | .greet fmt, _ =>
      rw [invoke_greet] at h
      cases hb : buildInput ctx PersonInput with
      | error e => rw [hb, except_bind_error] at h; simp at h
      | ok inp =>
          rw [hb, except_bind_ok] at h
          cases hf : formatGreet fmt ((lk inp "name").getD (.str ""))
              ((lk inp "age").getD (.str "")) with
          | error msg => rw [hf] at h; simp at h
          | ok str =>
              rw [hf] at h
              refine ⟨[("greeting", Value.str str)], ?_, ?_⟩
              · rw [outSchemaOf_greet]
                simp [keysOf, GreetingOutput]
              · injection h with h1
                exact h1.symm
  | .color c, _ =>
      rw [invoke_color] at h
      cases hb : buildInput ctx GreetingOutput with
      | error e => rw [hb, except_bind_error] at h; simp at h
      | ok inp =>
          rw [hb, except_bind_ok] at h
          refine ⟨[("favorite_color", Value.str c)], ?_, ?_⟩
          · rw [outSchemaOf_color]
            simp [keysOf, FavoriteColorOutput]
          · injection h with h1
            exact h1.symm

/-- Counterexample to C5 as stated: the constructible pipeline
`GreetNode("X") >> ColorNode("g")`, whose output schema is only
`favorite_color`, overwrites the input record's `greeting` field even
though `greeting` is not in the pipeline's output schema. -/
theorem passthrough_counterexample :
    wfB pipeXG = true
    ∧ (invoke pipeXG recWithGreeting).map (fun res => lk res "greeting") =
        .ok (some (Value.str "X"))
    ∧ lk recWithGreeting "greeting" = some (Value.str "old")
    ∧ ("greeting" ∈ keysOf (outSchemaOf pipeXG) → False) := by
  refine ⟨rfl, rfl, rfl, ?_⟩
  intro hmem
  have hout : outSchemaOf pipeXG = FavoriteColorOutput := by
    unfold pipeXG
    rw [outSchemaOf_composite, outLast_cons_cons, outLast_singleton, outSchemaOf_color]
  rw [hout] at hmem
  simp [keysOf, FavoriteColorOutput] at hmem

/-- Claim C5 (amended): when invoke succeeds, every field of the input
record whose name is not written by any node inside `n` (for a leaf,
exactly `n`'s output schema fields) keeps its value; for a leaf node the
result is precisely the input record updated with the node's output
fields, which take precedence on name collision.  The input record is a
value the function never modifies. -/
theorem passthrough_amended (n : NodeV) (r res : Record)
    (h : invoke n r = .ok res) :
    (∀ k, k ∉ writtenNames n → lk res k = lk r k)
    ∧ (isLeaf n = true →
        ∃ outd, keysOf outd = keysOf (outSchemaOf n) ∧ res = recUpdate r outd) :=
  ⟨invoke_passthrough n r res h, fun hleaf => invoke_leaf_shape n hleaf r res h⟩

/-- Witness for the amended C5 at `GreetNode("A")` on a concrete record. -/
theorem passthrough_amended_witness :
    (∀ k, k ∉ writtenNames (.greet "A") → lk recNameAgeGreeted k = lk recNameAge k)
    ∧ (isLeaf (.greet "A") = true →
        ∃ outd, keysOf outd = keysOf (outSchemaOf (.greet "A")) ∧
          recNameAgeGreeted = recUpdate recNameAge outd) :=
  passthrough_amended (.greet "A") recNameAge recNameAgeGreeted rfl

/-! ## Associativity of composition -/

/-- Counterexample to C3 as stated: with `nodeA : \x7b\x7d → \x7bx\x7d`,
`nodeB : \x7bx\x7d → \x7by\x7d`, `nodeC : \x7bx, y\x7d → \x7b\x7d`,
the left grouping `(a >> b) >> c` is rejected — the inner Sequence hides
`x`, exposing only `union(\x7b\x7d, \x7by\x7d)` — while the right
grouping `a >> (b >> c)` is accepted. -/
theorem assoc_counterexample :
    ((rshift nodeA nodeB).bind (fun ab => rshift ab nodeC)).isOk = false
    ∧ ((rshift nodeB nodeC).bind (fun bc => rshift nodeA bc)).isOk = true :=
  ⟨rfl, rfl⟩

theorem flattenN_composite (cs : List NodeV) :
    flattenN (.composite cs) = flattenL cs := by
  rw [flattenN]

theorem flattenN_leaf (n : NodeV) (h : isLeaf n = true) : flattenN n = [n] := by
  match n, h with
  | .prim iS oS f, _ => rw [flattenN]; simp
  | .greet fmt, _ => rw [flattenN]; simp
  | .color c, _ => rw [flattenN]; simp

theorem flattenL_nil : flattenL [] = [] := by rw [flattenL]

theorem flattenL_cons (n : NodeV) (rest : List NodeV) :
    flattenL (n :: rest) = flattenN n ++ flattenL rest := by
  rw [flattenL]

theorem invokeSeq_single (x : NodeV) (ctx : Record) :
    invokeSeq [x] ctx = invoke x ctx := by
  rw [invokeSeq_cons]
  cases hx : invoke x ctx with
  | error e => rw [except_bind_error]
  | ok mid => rw [except_bind_ok, invokeSeq_nil]

theorem invokeSeq_pair (x y : NodeV) (ctx : Record) :
    invokeSeq [x, y] ctx = (invoke x ctx).bind (invoke y) := by
  rw [invokeSeq_cons]
  cases hx : invoke x ctx with
  | error e => rw [except_bind_error, except_bind_error]
  | ok mid => rw [except_bind_ok, except_bind_ok, invokeSeq_single]

theorem rshift_ok_shape (a b v : NodeV) (h : rshift a b = .ok v) :
    v = .composite [a, b] := by
  rw [rshift] at h
  exact (mkComposite_ok_shape _ _ h).1

/-- Claim C3 (amended): when both groupings `(a >> b) >> c` and
`a >> (b >> c)` successfully compose, the resulting Sequences have the
same flattened child order and identical invoke behaviour on every
record; acceptance, however, can differ between the groupings, because a
nested Sequence exposes only its first child's input schema and its last
child's output schema to the outer accumulation check. -/
theorem assoc_amended (a b c l r : NodeV)
    (hl : (rshift a b).bind (fun ab => rshift ab c) = .ok l)
    (hr : (rshift b c).bind (fun bc => rshift a bc) = .ok r) :
    flattenN l = flattenN r ∧ ∀ ctx, invoke l ctx = invoke r ctx := by
  cases hab : rshift a b with
  | error e => rw [hab, except_bind_error] at hl; simp at hl
  | ok ab =>
  cases hbc : rshift b c with
  | error e => rw [hbc, except_bind_error] at hr; simp at hr
  | ok bc =>
  rw [hab, except_bind_ok] at hl
  rw [hbc, except_bind_ok] at hr
  have hab' := rshift_ok_shape _ _ _ hab
  have hbc' := rshift_ok_shape _ _ _ hbc
  have hl' := rshift_ok_shape _ _ _ hl
  have hr' := rshift_ok_shape _ _ _ hr
  subst hab' hbc' hl' hr'
  constructor
  · rw [flattenN_composite, flattenL_cons, flattenL_cons, flattenL_nil,
        flattenN_composite, flattenL_cons, flattenL_cons, flattenL_nil,
        flattenN_composite, flattenL_cons, flattenL_cons, flattenL_nil,
        flattenN_composite, flattenL_cons, flattenL_cons, flattenL_nil]
    simp [List.append_assoc]
  · intro ctx
    rw [invoke_composite, invoke_composite, invokeSeq_pair, invokeSeq_pair,
        invoke_composite, invokeSeq_pair, except_bind_assoc]
    cases ha : invoke a ctx with
    | error e => rw [except_bind_error, except_bind_error]
    | ok mid => rw [except_bind_ok, except_bind_ok, invoke_composite, invokeSeq_pair]

/-- Witness for the amended C3: both groupings of
`nodeB >> nodeD >> nodeE` compose, flatten identically and run
identically. -/
theorem assoc_amended_witness :
    flattenN leftGrouped = flattenN rightGrouped
    ∧ ∀ ctx, invoke leftGrouped ctx = invoke rightGrouped ctx :=
  assoc_amended nodeB nodeD nodeE leftGrouped rightGrouped rfl rfl

/-! ## Serialization round-trip -/

theorem serB_prim (iS oS : Schema) (f : Record → Except String (String → Value)) :
    serB (.prim iS oS f) = false := by rw [serB]

theorem serB_composite (cs : List NodeV) :
    serB (.composite cs) = serAll cs := by rw [serB]

theorem serAll_mem (cs : List NodeV) (h : serAll cs = true) :
    ∀ c ∈ cs, serB c = true := by
  induction cs with
  | nil => intro c hc; simp at hc
  | cons n rest ih =>
      rw [serAll] at h
      intro c hc
      rcases List.mem_cons.1 hc with he | he
      · subst he; exact (Bool.and_eq_true_iff.1 h).1
      · exact ih (Bool.and_eq_true_iff.1 h).2 c he

theorem toJsonList_nil : toJsonList [] = [] := by rw [toJsonList]

theorem toJsonList_cons (n : NodeV) (rest : List NodeV) :
    toJsonList (n :: rest) = toJson n :: toJsonList rest := by rw [toJsonList]

theorem jsonSizeL_nil : jsonSizeL [] = 0 := by rw [jsonSizeL]

theorem jsonSizeL_cons (d : Json) (rest : List Json) :
    jsonSizeL (d :: rest) = jsonSize d + jsonSizeL rest := by rw [jsonSizeL]

theorem jsonSize_mem_toJsonList (cs : List NodeV) (c : NodeV) (h : c ∈ cs) :
    jsonSize (toJson c) ≤ jsonSizeL (toJsonList cs) := by
  induction cs with
  | nil => simp at h
  | cons n rest ih =>
      rw [toJsonList_cons, jsonSizeL_cons]
      rcases List.mem_cons.1 h with he | he
      · subst he; omega
      · have := ih he; omega

theorem jsonSize_toJson_composite (cs : List NodeV) :
    jsonSize (toJson (.composite cs)) = 4 + jsonSizeL (toJsonList cs) := by
  rw [toJson]
  simp [jsonSize, jsonSizeKV]
  omega

theorem fromJsonF_greet (fuel : Nat) (fmt : String) :
    fromJsonF (fuel + 1) (toJson (.greet fmt)) = .ok (.greet fmt) := rfl

theorem fromJsonF_color (fuel : Nat) (c : String) :
    fromJsonF (fuel + 1) (toJson (.color c)) = .ok (.color c) := rfl

theorem fromJsonF_composite (fuel : Nat) (cs : List NodeV) :
    fromJsonF (fuel + 1) (toJson (.composite cs)) =
      (fromJsonListP (fromJsonF fuel) (toJsonList cs)).bind
        (fun ns => (mkComposite ns).mapError SerErr.compositionFailed) := rfl

theorem fromJsonListP_nil (parse : Json → Except SerErr NodeV) :
    fromJsonListP parse [] = .ok [] := rfl

theorem fromJsonListP_cons (parse : Json → Except SerErr NodeV)
    (d : Json) (ds : List Json) :
    fromJsonListP parse (d :: ds) =
      (parse d).bind (fun n =>
        (fromJsonListP parse ds).bind (fun ns => .ok (n :: ns))) := rfl

theorem except_mapError_ok {ε ε2 α : Type} (f : ε → ε2) (a : α) :
    (Except.ok a : Except ε α).mapError f = .ok a := rfl

theorem roundListF (cs : List NodeV)
    (hIH : ∀ c ∈ cs, wfB c = true → serB c = true →
      ∀ fuel, jsonSize (toJson c) ≤ fuel → fromJsonF fuel (toJson c) = .ok c)
    (hwf : ∀ c ∈ cs, wfB c = true) (hser : ∀ c ∈ cs, serB c = true)
    (fuel : Nat) (hfuel : ∀ c ∈ cs, jsonSize (toJson c) ≤ fuel) :
    fromJsonListP (fromJsonF fuel) (toJsonList cs) = .ok cs := by
  induction cs with
  | nil => rw [toJsonList_nil, fromJsonListP_nil]
  | cons c rest ih =>
      rw [toJsonList_cons, fromJsonListP_cons]
      rw [hIH c (by simp) (hwf c (by simp)) (hser c (by simp)) fuel (hfuel c (by simp))]
      rw [except_bind_ok]
      rw [ih (fun x hx => hIH x (by simp [hx])) (fun x hx => hwf x (by simp [hx]))
          (fun x hx => hser x (by simp [hx])) (fun x hx => hfuel x (by simp [hx]))]
      rw [except_bind_ok]

theorem roundF : ∀ n, wfB n = true → serB n = true →
    ∀ fuel, jsonSize (toJson n) ≤ fuel → fromJsonF fuel (toJson n) = .ok n := by
  intro n
  refine nodeInd (P := fun n => wfB n = true → serB n = true →
    ∀ fuel, jsonSize (toJson n) ≤ fuel → fromJsonF fuel (toJson n) = .ok n)
    ?_ ?_ ?_ ?_ n
  · intro iS oS f _ hser
    rw [serB_prim] at hser
    simp at hser
  · intro fmt _ _ fuel hfuel
    have h4 : jsonSize (toJson (.greet fmt)) = 4 := rfl
    cases fuel with
    | zero => rw [h4] at hfuel; omega
    | succ f => exact fromJsonF_greet f fmt
  · intro c _ _ fuel hfuel
    have h4 : jsonSize (toJson (.color c)) = 4 := rfl
    cases fuel with
    | zero => rw [h4] at hfuel; omega
    | succ f => exact fromJsonF_color f c
  · intro cs hcs hwf hser fuel hfuel
    rw [jsonSize_toJson_composite] at hfuel
    rw [wfB_composite, Bool.and_eq_true_iff] at hwf
    rw [serB_composite] at hser
    cases fuel with
    | zero => omega
    | succ f =>
        rw [fromJsonF_composite]
        rw [roundListF cs hcs (wfAll_mem cs hwf.2) (serAll_mem cs hser) f
          (fun c hc => by
            have h1 := jsonSize_mem_toJsonList cs c hc
            omega)]
        rw [except_bind_ok]
        obtain ⟨v, hv⟩ := Option.isSome_iff_exists.1 hwf.1
        have hmk : mkComposite cs = .ok v := by
          cases hmk2 : mkComposite cs with
          | error e => rw [hmk2] at hv; simp [Except.toOption] at hv
          | ok v2 =>
              rw [hmk2] at hv
              simp [Except.toOption] at hv
              rw [hv]
        have := (mkComposite_ok_shape cs v hmk).1
        subst this
        rw [hmk, except_mapError_ok]

theorem fromJson_toJson_composite (cs : List NodeV)
    (hwf : wfAll cs = true) (hser : serAll cs = true) :
    fromJson (toJson (.composite cs)) =
      (mkComposite cs).mapError SerErr.compositionFailed := by
  rw [fromJson, jsonSize_toJson_composite]
  have h1 : 4 + jsonSizeL (toJsonList cs) = (3 + jsonSizeL (toJsonList cs)) + 1 := by
    omega
  rw [h1, fromJsonF_composite]
  rw [roundListF cs (fun c _ => roundF c) (wfAll_mem cs hwf) (serAll_mem cs hser)
    (3 + jsonSizeL (toJsonList cs))
    (fun c hc => by
      have := jsonSize_mem_toJsonList cs c hc
      omega)]
  rw [except_bind_ok]

/-- Claim C2: for every validly constructed, configuration-determined
node, deserializing its serialization succeeds and yields a node with
identical invoke behaviour on every record; and for a composite the
deserializer rebuilds the children and routes them through the
`CompositeNode` constructor, re-running the accumulation check rather
than bypassing it. -/
theorem roundtrip_preserves_behavior (n : NodeV)
    (h1 : wfB n = true) (h2 : serB n = true) :
    ∃ m, fromJson (toJson n) = .ok m ∧ (∀ r, invoke m r = invoke n r)
    ∧ ∀ cs, n = .composite cs →
        fromJson (toJson n) = (mkComposite cs).mapError SerErr.compositionFailed := by
  refine ⟨n, ?_, fun r => rfl, ?_⟩
  · rw [fromJson]
    exact roundF n h1 h2 _ (Nat.le_refl _)
  · intro cs hcs
    subst hcs
    rw [wfB_composite, Bool.and_eq_true_iff] at h1
    rw [serB_composite] at h2
    exact fromJson_toJson_composite cs h1.2 h2

/-- Witness for C2: the pipeline `GreetNode("Hi \x7bname\x7d") >> ColorNode("blue")`
round-trips through serialization. -/
theorem roundtrip_preserves_behavior_witness :
    ∃ m, fromJson (toJson pipeHiBlue) = .ok m
    ∧ (∀ r, invoke m r = invoke pipeHiBlue r)
    ∧ ∀ cs, pipeHiBlue = .composite cs →
        fromJson (toJson pipeHiBlue) =
          (mkComposite cs).mapError SerErr.compositionFailed :=
  roundtrip_preserves_behavior pipeHiBlue rfl rfl
